import Mathlib

/-!
Verification of the AP2Y tidy builder (src/build_tidy.py).

The development shallowly embeds the two components of the script:

* the snapshot parser (table localization, CSV decode, value-column
  selection, month-label parsing, per-snapshot deduplication), and
* the panel assembler (concatenation, canonical-order last-wins
  deduplication, month-by-vintage grid densification, per-month
  forward-fill across vintages, trim of unfillable cells).

Months are represented as linearized month indices (year * 12 + month - 1),
vintage dates as the numeral encoding year * 10000 + month * 100 + day
(order-preserving on valid dates), and numeric values as rationals.
Pandas sorts are modelled as stable insertion sorts: faithful for the
two-key panel sort (a stable lexsort in pandas), whereas the single-key
per-snapshot sort uses an unstable quicksort whose tie order among equal
months is implementation-defined; the model fixes the stable order, and
no theorem below depends on that tie order.
-/

namespace Tidy

/-! ### Lexicographic order on pair keys -/

/-- Lexicographic (non-strict) order on pair keys, as used when sorting
by observation month and vintage date. -/
def pairLE (p q : ℕ × ℕ) : Prop := p.1 < q.1 ∨ (p.1 = q.1 ∧ p.2 ≤ q.2)

/-- Lexicographic strict order on pair keys. -/
def pairLT (p q : ℕ × ℕ) : Prop := p.1 < q.1 ∨ (p.1 = q.1 ∧ p.2 < q.2)

instance (p q : ℕ × ℕ) : Decidable (pairLE p q) := by
  unfold pairLE; exact inferInstance

instance (p q : ℕ × ℕ) : Decidable (pairLT p q) := by
  unfold pairLT; exact inferInstance

/-! ### Stable insertion sort by key, and last-wins dedup of sorted lists

These model the pandas idiom
`sort_values(keys).drop_duplicates(subset=keys, keep="last")`. The
assembler sorts by two keys (observation month, vintage date), which
pandas performs with a stable lexsort, so the stable model is exact
there; the per-snapshot dedup sorts by the single observation-month key
with an unstable quicksort, for which this model fixes one tie order. -/

section Keyed

variable {α : Type} (key : α → ℕ × ℕ)

/-- Insert an element into a list sorted by `key`, before the first
element whose key is not smaller (stable insertion). -/
def ordInsert (a : α) : List α → List α
  | [] => [a]
  | b :: l => if pairLE (key a) (key b) then a :: b :: l else b :: ordInsert a l

/-- Stable insertion sort by `key` (model of a pandas `sort_values`). -/
def sortK : List α → List α
  | [] => []
  | a :: l => ordInsert key a (sortK l)

/-- Keep the last element of each run of equal keys (model of
`drop_duplicates(keep="last")` applied to a key-sorted list). -/
def dedupLastK : List α → List α
  | [] => []
  | [a] => [a]
  | a :: b :: l =>
      if key a = key b then dedupLastK (b :: l) else a :: dedupLastK (b :: l)

/-- Sort by key, then keep the last row of each key run: the combined
deduplication idiom of the script. -/
def dedupSortK (l : List α) : List α := dedupLastK key (sortK key l)

end Keyed

/-- Last element of a list, as an option (structural definition so that
witnesses evaluate by kernel reduction). -/
def lastOf {α : Type} : List α → Option α
  | [] => none
  | [a] => some a
  | _ :: b :: l => lastOf (b :: l)

/-! ### Minimum and maximum of a list of naturals (model of pandas min and max) -/

/-- Fold-based minimum with a seed, as used to model the minimum of a
nonempty pandas column. -/
def listMin (n : ℕ) (l : List ℕ) : ℕ := l.foldl Nat.min n

/-- Fold-based maximum with a seed. -/
def listMax (n : ℕ) (l : List ℕ) : ℕ := l.foldl Nat.max n

/-! ### Contiguous ranges of months (model of pandas period_range) -/

/-- Ascending run of `n` consecutive naturals starting at `s`: the model of
the gap-free monthly index from the minimum to the maximum month. -/
def natRange (s n : ℕ) : List ℕ :=
  match n with
  | 0 => []
  | n + 1 => s :: natRange (s + 1) n

/-! ### Forward-fill along ascending vintage dates

The model of `groupby("observation_month")["value"].ffill()`: an explicit
scan over a single observation month that carries the last non-missing
value forward over ascending vintage dates. -/

/-- One step of the carry: a present value replaces the accumulator. -/
def stepCarry (look : ℕ → Option ℚ) (acc : Option ℚ) (v : ℕ) : Option ℚ :=
  match look v with
  | some x => some x
  | none => acc

/-- Value carried by the forward scan over a list of vintage dates. -/
def carried (look : ℕ → Option ℚ) (acc : Option ℚ) (l : List ℕ) : Option ℚ :=
  l.foldl (stepCarry look) acc

/-- Forward-fill scan: for each vintage date, the cell value after the
fill (the observed value if present, otherwise the carried one). -/
def ffillScan (look : ℕ → Option ℚ) : List ℕ → Option ℚ → List (ℕ × Option ℚ)
  | [], _ => []
  | v :: vs, acc =>
      (v, stepCarry look acc v) :: ffillScan look vs (stepCarry look acc v)

/-- Inclusive prefix of a list up to the first occurrence of `v`. -/
def upTo (v : ℕ) : List ℕ → List ℕ
  | [] => []
  | w :: ws => if w = v then [w] else w :: upTo v ws

/-! ### First index scan (model of a top-to-bottom line scan) -/

/-- Index of the first element satisfying a predicate, scanning from the
front. -/
def firstIdx {α : Type} (p : α → Bool) : List α → Option ℕ
  | [] => none
  | a :: l => if p a then some 0 else (firstIdx p l).map (· + 1)

/-! ### Character and string utilities

All string processing is done on character lists with structural
recursion, so that concrete witnesses evaluate inside the kernel. -/

/-- Whitespace test (the regex class backslash-s restricted to the
characters that can occur in the decoded snapshot lines). -/
def isWsChar (c : Char) : Bool := c.isWhitespace

/-- Word-constituent characters for the regex word boundary. -/
def isWordChar (c : Char) : Bool := c.isAlpha || c.isDigit || c == '_'

/-- Trim leading and trailing whitespace from a character list. -/
def trimCh (cs : List Char) : List Char :=
  ((cs.dropWhile isWsChar).reverse.dropWhile isWsChar).reverse

/-- Collapse internal whitespace runs to single spaces; the flag records
whether the previous character was whitespace. -/
def squeezeAux : Bool → List Char → List Char
  | _, [] => []
  | prev, c :: cs =>
      if isWsChar c then
        if prev then squeezeAux true cs else ' ' :: squeezeAux true cs
      else c :: squeezeAux false cs

/-- Split a character list on a separator character (model of splitting a
string on a one-character separator). -/
def splitCh (sep : Char) : List Char → List (List Char)
  | [] => [[]]
  | a :: r =>
      let ps := splitCh sep r
      if a = sep then [] :: ps
      else
        match ps with
        | p :: ps' => (a :: p) :: ps'
        | [] => [[a]]

/-- Numeric value of a digit string. -/
def digitsVal (cs : List Char) : ℕ :=
  cs.foldl (fun a c => a * 10 + (c.toNat - 48)) 0

/-- Blank-line test, modelling the Python check that a stripped line is
empty. -/
def isBlankLine (s : String) : Bool := (s.toList.dropWhile isWsChar).isEmpty

/-- Split a text into lines on newline characters, dropping the trailing
empty piece a terminal newline would produce (model of splitlines). -/
def splitLines (s : String) : List String :=
  let ps := (splitCh '\n' s.toList).map (fun cs => (⟨cs⟩ : String))
  match ps.getLast? with
  | some l => if l.isEmpty then ps.dropLast else ps
  | none => ps

/-- Remove every comma (model of str.replace applied to thousands
separators). -/
def stripCommas (s : String) : String := ⟨s.toList.filter (fun c => !(c == ','))⟩

/-- Numeric coercion of an unsigned decimal literal. -/
def parseNumCore (cs : List Char) : Option ℚ :=
  let ip := cs.takeWhile Char.isDigit
  let rest := cs.drop ip.length
  match rest with
  | [] => if ip.isEmpty then none else some ((digitsVal ip : ℚ))
  | '.' :: fp0 =>
      let fp := fp0.takeWhile Char.isDigit
      let rest2 := fp0.drop fp.length
      if rest2.isEmpty && !(ip.isEmpty && fp.isEmpty) then
        some ((digitsVal (ip ++ fp) : ℚ) / ((10 : ℚ) ^ fp.length))
      else none
  | _ => none

/-- Model of pandas numeric coercion with errors="coerce" on a single cell:
surrounding whitespace is tolerated, an optional sign and a decimal point
are accepted, anything else coerces to missing. -/
def parseNum (s : String) : Option ℚ :=
  match trimCh s.toList with
  | '-' :: r => (parseNumCore r).map (fun q => -q)
  | '+' :: r => parseNumCore r
  | r => parseNumCore r

/-- Month index (0 to 11) of an uppercase month name, short or full
(the union of the strptime percent-b and percent-B vocabularies). -/
def monthFromName (t : String) : Option ℕ :=
  match t with
  | "JAN" => some 0
  | "FEB" => some 1
  | "MAR" => some 2
  | "APR" => some 3
  | "MAY" => some 4
  | "JUN" => some 5
  | "JUL" => some 6
  | "AUG" => some 7
  | "SEP" => some 8
  | "OCT" => some 9
  | "NOV" => some 10
  | "DEC" => some 11
  | "JANUARY" => some 0
  | "FEBRUARY" => some 1
  | "MARCH" => some 2
  | "APRIL" => some 3
  | "JUNE" => some 5
  | "JULY" => some 6
  | "AUGUST" => some 7
  | "SEPTEMBER" => some 8
  | "OCTOBER" => some 9
  | "NOVEMBER" => some 10
  | "DECEMBER" => some 11
  | _ => none

/-- Linearized month index of a calendar month. -/
def encodeMonth (y mo : ℕ) : ℕ := y * 12 + (mo - 1)

/-- Order-preserving numeral encoding of a calendar date. -/
def encodeDate (y mo d : ℕ) : ℕ := y * 10000 + mo * 100 + d

/-- Model of parse_month_label: strip, collapse internal whitespace,
uppercase, then accept exactly a 4-digit year followed by a short or full
month name. (The pandas Timestamp year range is not modelled; no claim
depends on years outside it.) -/
def parseMonthLabel (s : String) : Option ℕ :=
  let t := (squeezeAux false (trimCh s.toList)).map Char.toUpper
  match splitCh ' ' t with
  | [ys, ms] =>
      if ys.length = 4 && ys.all Char.isDigit then
        (monthFromName ⟨ms⟩).map (fun mo => digitsVal ys * 12 + mo)
      else none
  | _ => none

/-- Model of the table-start regex: optional leading whitespace, four
digits, at least one whitespace character, then a run of 3 to 9 letters
ending at a word boundary. The letter run is not required to be a month
name, exactly as in the source pattern. -/
def lineMatchesPat (ln : String) : Bool :=
  let r1 := ln.toList.dropWhile isWsChar
  let ds := r1.take 4
  let r2 := r1.drop 4
  (ds.length = 4 && ds.all Char.isDigit) &&
    (match r2 with
     | [] => false
     | c :: _ =>
         isWsChar c &&
           (let r3 := r2.dropWhile isWsChar
            let run := r3.takeWhile Char.isAlpha
            let after := r3.drop run.length
            decide (3 ≤ run.length) && decide (run.length ≤ 9) &&
              (match after with
               | [] => true
               | a :: _ => !isWordChar a)))

/-- Modelled from the spec: a line matching a year-then-month-name
pattern, where the month name must be a case-insensitive 3-letter
abbreviation or full month name, with internal whitespace collapsed. This
definition follows the wording of the specification and is compared
against lineMatchesPat, which follows the source regex. -/
def specLineMatchesMonthName (ln : String) : Bool :=
  let t := (squeezeAux false (trimCh ln.toList)).map Char.toUpper
  match splitCh ' ' t with
  | ys :: ms :: _ =>
      ys.length = 4 && ys.all Char.isDigit &&
        (monthFromName ⟨ms.takeWhile Char.isAlpha⟩).isSome
  | _ => false

/-- Model of the layered table localization: first line matching the
regex, else the line after the first blank line, else line 0. -/
def findTableStart (lines : List String) : ℕ :=
  match firstIdx lineMatchesPat lines with
  | some i => i
  | none =>
      match firstIdx isBlankLine lines with
      | some i => i + 1
      | none => 0

/-! ### CSV decode and the snapshot parser -/

/-- Decoded tabular data: a header row and data rows of string cells. -/
structure Table where
  header : List String
  rows : List (List String)
deriving DecidableEq, Repr

/-- Split one CSV line into cells. -/
def splitCells (s : String) : List String :=
  (splitCh ',' s.toList).map (fun cs => (⟨cs⟩ : String))

/-- Model of the pandas CSV read over the remaining lines: blank lines are
skipped, the first remaining line is the header (its labels stripped, as
the script immediately does), the rest are data rows. A body with no
content at all makes the reader raise, modelled as none. -/
def decodeCsv (ls : List String) : Option Table :=
  match ls.filter (fun l => !(l = "")) with
  | [] => none
  | h :: rest =>
      some ⟨(splitCells h).map (fun c => (⟨trimCh c.toList⟩ : String)),
            rest.map splitCells⟩

/-- A candidate value column qualifies when at least one of its cells,
with commas stripped, coerces to a number. -/
def colQualifies (rows : List (List String)) (j : ℕ) : Bool :=
  rows.any (fun r => (parseNum (stripCommas (r.getD j ""))).isSome)

/-- Left-to-right scan over `n` candidate column positions starting at
`j`, returning the first qualifying position. -/
def scanCols (rows : List (List String)) (j : ℕ) : ℕ → Option ℕ
  | 0 => none
  | n + 1 => if colQualifies rows j then some j else scanCols rows (j + 1) n

/-- Model of the value-column choice: among the columns after the first,
pick the leftmost with at least one numeric-coercible cell. -/
def selectValueCol (tbl : Table) : Option ℕ :=
  scanCols tbl.rows 1 (tbl.header.length - 1)

/-- Rows that survive both the month-label parse of the first cell and the
numeric coercion of the chosen value cell, in original row order. -/
def cleanedRows (rows : List (List String)) (j : ℕ) : List (ℕ × ℚ) :=
  rows.filterMap (fun r =>
    match parseMonthLabel (r.getD 0 ""), parseNum (stripCommas (r.getD j "")) with
    | some m, some v => some (m, v)
    | _, _ => none)

/-- Dedup key for a per-snapshot series entry: the observation month. -/
def monthKeyOf (p : ℕ × ℚ) : ℕ × ℕ := (p.1, 0)

/-- Per-vintage series: cleaned rows sorted by month with last-wins dedup
per month. The single-key pandas sort here is an unstable quicksort, so
the relative order of rows with equal months after sorting - and hence
which duplicate survives the keep-last dedup - is implementation-defined;
this model fixes the stable order, and no theorem below relies on which
duplicate survives. -/
def buildSeries (rows : List (List String)) (j : ℕ) : List (ℕ × ℚ) :=
  dedupSortK monthKeyOf (cleanedRows rows j)

/-! ### Vintage date from a filename -/

/-- Leap year predicate of the Gregorian calendar. -/
def isLeap (y : ℕ) : Bool := (y % 4 == 0 && y % 100 != 0) || y % 400 == 0

/-- Day count of a calendar month. -/
def daysInMonth (y mo : ℕ) : ℕ :=
  if mo = 2 then (if isLeap y then 29 else 28)
  else if mo = 4 ∨ mo = 6 ∨ mo = 9 ∨ mo = 11 then 30
  else 31

/-- Validity of a calendar date, as enforced by the strict date coercion
with errors="coerce". (The pandas Timestamp year range is not modelled;
no claim depends on years outside it.) -/
def validDate (y mo d : ℕ) : Bool :=
  decide (1 ≤ mo) && decide (mo ≤ 12) && decide (1 ≤ d) &&
    decide (d ≤ daysInMonth y mo)

/-- Digits of the trailing date pattern of a filename ending in a
four-digit, two-digit, two-digit group before the csv extension. -/
def trailingDate (name : String) : Option (ℕ × ℕ × ℕ) :=
  let cs := name.toList
  match cs.drop (cs.length - 14) with
  | [y1, y2, y3, y4, s1, m1, m2, s2, d1, d2, e1, e2, e3, e4] =>
      if [y1, y2, y3, y4, m1, m2, d1, d2].all Char.isDigit &&
          s1 == '-' && s2 == '-' && e1 == '.' && e2 == 'c' && e3 == 's' &&
          e4 == 'v' then
        some (digitsVal [y1, y2, y3, y4], digitsVal [m1, m2], digitsVal [d1, d2])
      else none
  | _ => none

/-- Model of parse_vintage_from_filename: extract the trailing date
pattern and coerce it to a date, yielding none when the digits do not form
a valid calendar date. -/
def parseVintageFromFilename (name : String) : Option ℕ :=
  (trailingDate name).bind (fun t =>
    if validDate t.1 t.2.1 t.2.2 then some (encodeDate t.1 t.2.1 t.2.2) else none)

/-! ### The snapshot parser -/

/-- One raw input file: its filename and its text content. -/
structure RawFile where
  name : String
  text : String
deriving DecidableEq

/-- Outcome of parsing one snapshot: a per-vintage series, a skip with a
diagnostic reason, or an uncaught reader error that aborts the run. -/
inductive SnapResult where
  | ok (vintage : ℕ) (series : List (ℕ × ℚ))
  | skipped (reason : String)
  | fatal
deriving DecidableEq

/-- Model of the per-file body of main: vintage from the filename, table
localization, CSV decode, shape check, value-column selection, month
parse, and per-snapshot dedup. -/
def parseSnapshot (f : RawFile) : SnapResult :=
  match parseVintageFromFilename f.name with
  | none => .skipped "vintage missing"
  | some vint =>
      let lines := splitLines f.text
      let start := findTableStart lines
      match decodeCsv (lines.drop start) with
      | none => .fatal
      | some tbl =>
          if tbl.rows.isEmpty || tbl.header.length < 2 then
            .skipped "unexpected shape"
          else
            match selectValueCol tbl with
            | none => .skipped "no numeric-like value column"
            | some j =>
                if (tbl.rows.map (fun r => parseMonthLabel (r.getD 0 ""))).all
                    (fun o => o.isNone) then
                  .skipped "no parsable month labels"
                else .ok vint (buildSeries tbl.rows j)

/-! ### The panel assembler -/

/-- One cell of the tidy panel. -/
structure Row where
  month : ℕ
  vintage : ℕ
  value : ℚ
deriving DecidableEq, Repr

/-- Canonical key of a panel row. -/
def rowKey (r : Row) : ℕ × ℕ := (r.month, r.vintage)

/-- Key adapter embedding plain naturals into pair keys. -/
def natKeyOf (v : ℕ) : ℕ × ℕ := (v, 0)

/-- Concatenation of the per-vintage series into tidy rows, in input
order (model of pandas concat over the collected parts). -/
def tidyOfParts : List (ℕ × List (ℕ × ℚ)) → List Row
  | [] => []
  | (v, s) :: ps => s.map (fun p => ⟨p.1, v, p.2⟩) ++ tidyOfParts ps

/-- Canonical-order last-wins deduplication of the concatenated rows. -/
def dedupRows (tidy : List Row) : List Row := dedupSortK rowKey tidy

/-- Lookup of the deduplicated observed value at a month and vintage. -/
def obsAt (tidy : List Row) (m v : ℕ) : Option ℚ :=
  ((dedupRows tidy).find? (fun r => decide (rowKey r = (m, v)))).map Row.value

/-- Distinct observed vintage dates, ascending. -/
def vintsOf (tidy : List Row) : List ℕ :=
  dedupSortK natKeyOf (tidy.map Row.vintage)

/-- Minimum observed month. -/
def monthsLo : List Row → ℕ
  | [] => 0
  | r :: rs => listMin r.month ((r :: rs).map Row.month)

/-- Maximum observed month. -/
def monthsHi : List Row → ℕ
  | [] => 0
  | r :: rs => listMax r.month ((r :: rs).map Row.month)

/-- The gap-free monthly index from the minimum to the maximum observed
month, inclusive. -/
def allMonthsOf (tidy : List Row) : List ℕ :=
  natRange (monthsLo tidy) (monthsHi tidy + 1 - monthsLo tidy)

/-- Panel rows of one observation month: the forward-filled cells over all
vintages, with still-missing cells dropped. -/
def monthRows (look : ℕ → Option ℚ) (m : ℕ) (vs : List ℕ) : List Row :=
  (ffillScan look vs none).filterMap (fun p =>
    match p.2 with
    | some x => some ⟨m, p.1, x⟩
    | none => none)

/-- Concatenation over months of the per-month panel rows. -/
def concatMapRows (f : ℕ → List Row) : List ℕ → List Row
  | [] => []
  | m :: ms => f m ++ concatMapRows f ms

/-- The panel assembler: dedup, densify onto the full month-by-vintage
grid, forward-fill per month, and trim. An empty tidy input makes the
grid construction raise, modelled as none. -/
def assemble (tidy : List Row) : Option (List Row) :=
  match tidy with
  | [] => none
  | _ :: _ =>
      some (concatMapRows
        (fun m => monthRows (obsAt tidy m) m (vintsOf tidy))
        (allMonthsOf tidy))

/-! ### The whole run -/

/-- Lexicographic order on character lists (model of the lexical filename
order of the sorted file glob). -/
def charListLE : List Char → List Char → Bool
  | [], _ => true
  | _ :: _, [] => false
  | a :: as, b :: bs =>
      if a = b then charListLE as bs else decide (a.toNat < b.toNat)

/-- Insert one file into a name-sorted file list. -/
def insFile (f : RawFile) : List RawFile → List RawFile
  | [] => [f]
  | g :: l =>
      if charListLE f.name.toList g.name.toList then f :: g :: l
      else g :: insFile f l

/-- Sort files by name (model of the sorted glob of the raw directory). -/
def sortFiles : List RawFile → List RawFile
  | [] => []
  | f :: l => insFile f (sortFiles l)

/-- Whether a snapshot outcome aborts the run. -/
def isFatalR : SnapResult → Bool
  | .fatal => true
  | _ => false

/-- The per-vintage part carried forward by a successful parse. -/
def okPart : SnapResult → Option (ℕ × List (ℕ × ℚ))
  | .ok v s => some (v, s)
  | _ => none

/-- Parse outcomes of all files in lexical filename order. -/
def parsedResults (files : List RawFile) : List SnapResult :=
  (sortFiles files).map parseSnapshot

/-- The per-vintage series that survive parsing. -/
def parsedParts (files : List RawFile) : List (ℕ × List (ℕ × ℚ)) :=
  (parsedResults files).filterMap okPart

/-- Model of main: none when no run output is written (no input files, an
uncaught reader error, no surviving snapshot, or a failed assembly);
otherwise the assembled panel that is written out. -/
def mainRun (files : List RawFile) : Option (List Row) :=
  if files.isEmpty then none
  else if (parsedResults files).any isFatalR then none
  else if (parsedParts files).isEmpty then none
  else assemble (tidyOfParts (parsedParts files))

/-! ### Sample inputs used by concrete witnesses -/

/-- A well-formed snapshot file: the first table line is consumed as the
CSV header, the two following rows are data. -/
def sampleGoodFile : RawFile :=
  ⟨"AP2Y_2024-06-10.csv",
   "Title: AP2Y\n\n2021 MAY,Series\n2024 JAN,100\n2024 FEB,105\n"⟩

/-- Tidy rows of the two-vintage grid scenario of the specification:
vintage 2024-05-01 observes only January, vintage 2024-06-01 observes
January and February. -/
def scenarioTidy : List Row :=
  tidyOfParts
    [(encodeDate 2024 5 1, [(encodeMonth 2024 1, 100)]),
     (encodeDate 2024 6 1, [(encodeMonth 2024 1, 102), (encodeMonth 2024 2, 105)])]

/-- Tidy rows exercising a forward-filled cell: month 0 is observed only
at vintage 10, month 1 only at vintage 20. -/
def ffillTidy : List Row := [⟨0, 10, 100⟩, ⟨1, 20, 105⟩]

/-! ### Theorems: order lemmas -/

theorem pairLE_refl (p : ℕ × ℕ) : pairLE p p := Or.inr ⟨rfl, le_refl _⟩

theorem pairLE_total (p q : ℕ × ℕ) : pairLE p q ∨ pairLE q p := by
  rcases Nat.lt_trichotomy p.1 q.1 with h | h | h
  · exact Or.inl (Or.inl h)
  · rcases Nat.le_total p.2 q.2 with h2 | h2
    · exact Or.inl (Or.inr ⟨h, h2⟩)
    · exact Or.inr (Or.inr ⟨h.symm, h2⟩)
  · exact Or.inr (Or.inl h)

theorem pairLE_trans {p q r : ℕ × ℕ} (h1 : pairLE p q) (h2 : pairLE q r) :
    pairLE p r := by
  rcases h1 with h1 | ⟨e1, l1⟩
  · rcases h2 with h2 | ⟨e2, _⟩
    · exact Or.inl (h1.trans h2)
    · exact Or.inl (e2 ▸ h1)
  · rcases h2 with h2 | ⟨e2, l2⟩
    · exact Or.inl (e1 ▸ h2)
    · exact Or.inr ⟨e1.trans e2, l1.trans l2⟩

theorem pairLE_antisymm {p q : ℕ × ℕ} (h1 : pairLE p q) (h2 : pairLE q p) :
    p = q := by
  rcases h1 with h1 | ⟨e1, l1⟩
  · rcases h2 with h2 | ⟨e2, _⟩
    · exact absurd (h1.trans h2) (Nat.lt_irrefl _)
    · exact absurd h1 (e2 ▸ Nat.lt_irrefl _)
  · rcases h2 with h2 | ⟨e2, l2⟩
    · exact absurd h2 (e1 ▸ Nat.lt_irrefl _)
    · exact Prod.ext e1 (Nat.le_antisymm l1 l2)

theorem pairLT_of_pairLE_ne {p q : ℕ × ℕ} (h : pairLE p q) (hne : p ≠ q) :
    pairLT p q := by
  rcases h with h | ⟨e, l⟩
  · exact Or.inl h
  · refine Or.inr ⟨e, lt_of_le_of_ne l ?_⟩
    intro h2
    exact hne (Prod.ext e h2)

theorem not_pairLT_self (p : ℕ × ℕ) : ¬ pairLT p p := by
  rintro (h | ⟨_, h⟩) <;> exact Nat.lt_irrefl _ h

theorem pairLT_ne {p q : ℕ × ℕ} (h : pairLT p q) : p ≠ q := by
  rintro rfl; exact not_pairLT_self p h

/-! ### Theorems: sort and dedup lemmas -/

section Keyed

variable {α : Type} (key : α → ℕ × ℕ)

theorem lastOf_cons_cons (a b : α) (l : List α) :
    lastOf (a :: b :: l) = lastOf (b :: l) := rfl

theorem lastOf_mem {x : α} : ∀ {l : List α}, lastOf l = some x → x ∈ l := by
  intro l
  induction l with
  | nil => intro h; exact absurd h (by simp [lastOf])
  | cons a l ih =>
      cases l with
      | nil =>
          intro h
          rw [lastOf] at h
          exact (Option.some_inj.mp h) ▸ List.mem_cons_self a _
      | cons b l' =>
          intro h
          rw [lastOf_cons_cons] at h
          exact List.mem_cons_of_mem a (ih h)

theorem lastOf_eq_none_iff : ∀ {l : List α}, lastOf l = none ↔ l = [] := by
  intro l
  induction l with
  | nil => simp [lastOf]
  | cons a l ih =>
      cases l with
      | nil => simp [lastOf]
      | cons b l' =>
          rw [lastOf_cons_cons, ih]
          simp

theorem mem_ordInsert {a x : α} : ∀ {l : List α},
    x ∈ ordInsert key a l ↔ x = a ∨ x ∈ l := by
  intro l
  induction l with
  | nil => simp [ordInsert]
  | cons b l ih =>
      by_cases h : pairLE (key a) (key b)
      · simp [ordInsert, h]
      · simp only [ordInsert, if_neg h, List.mem_cons, ih]
        tauto

theorem mem_sortK {x : α} : ∀ {l : List α}, x ∈ sortK key l ↔ x ∈ l := by
  intro l
  induction l with
  | nil => simp [sortK]
  | cons a l ih => simp [sortK, mem_ordInsert, ih]

/-- Stability of `ordInsert` with respect to a fixed-key filter: the
inserted element lands in front of every element with the same key. -/
theorem filter_ordInsert (k : ℕ × ℕ) (a : α) : ∀ l : List α,
    (ordInsert key a l).filter (fun x => decide (key x = k)) =
      if key a = k then a :: l.filter (fun x => decide (key x = k))
      else l.filter (fun x => decide (key x = k)) := by
  intro l
  induction l with
  | nil =>
      by_cases h : key a = k <;> simp [ordInsert, List.filter_cons, h]
  | cons b l ih =>
      rw [ordInsert]
      by_cases hle : pairLE (key a) (key b)
      · rw [if_pos hle]
        by_cases h : key a = k <;> by_cases hb : key b = k <;>
          simp [List.filter_cons, h, hb]
      · rw [if_neg hle]
        by_cases h : key a = k
        · have hb : ¬ key b = k := by
            intro hbk
            exact hle (h ▸ hbk ▸ pairLE_refl (key b))
          simp [List.filter_cons, h, hb, ih]
        · by_cases hb : key b = k <;>
            simp [List.filter_cons, h, hb, ih]

/-- Stability of the key sort: the subsequence of rows with any given key
is preserved verbatim. -/
theorem filter_sortK (k : ℕ × ℕ) : ∀ l : List α,
    (sortK key l).filter (fun x => decide (key x = k)) =
      l.filter (fun x => decide (key x = k)) := by
  intro l
  induction l with
  | nil => rfl
  | cons a l ih =>
      by_cases h : key a = k <;>
        simp [sortK, filter_ordInsert, List.filter, h, ih]

theorem sortedK_ordInsert {a : α} : ∀ {l : List α},
    l.Pairwise (fun x y => pairLE (key x) (key y)) →
    (ordInsert key a l).Pairwise (fun x y => pairLE (key x) (key y)) := by
  intro l
  induction l with
  | nil => intro _; simp [ordInsert]
  | cons b l ih =>
      intro hp
      rcases List.pairwise_cons.mp hp with ⟨hb, hl⟩
      by_cases hle : pairLE (key a) (key b)
      · rw [ordInsert, if_pos hle]
        refine List.pairwise_cons.mpr ⟨?_, hp⟩
        intro x hx
        rcases List.mem_cons.mp hx with rfl | hx
        · exact hle
        · exact pairLE_trans hle (hb x hx)
      · rw [ordInsert, if_neg hle]
        refine List.pairwise_cons.mpr ⟨?_, ih hl⟩
        intro x hx
        rcases (mem_ordInsert key).mp hx with rfl | hx
        · rcases pairLE_total (key x) (key b) with h | h
          · exact absurd h hle
          · exact h
        · exact hb x hx

theorem sortedK_sortK : ∀ l : List α,
    (sortK key l).Pairwise (fun x y => pairLE (key x) (key y)) := by
  intro l
  induction l with
  | nil => simp [sortK]
  | cons a l ih => exact sortedK_ordInsert key ih

theorem mem_dedupLastK {x : α} : ∀ {l : List α}, x ∈ dedupLastK key l → x ∈ l := by
  intro l
  induction l with
  | nil => intro h; exact absurd h (List.not_mem_nil x)
  | cons a l ih =>
      cases l with
      | nil => intro h; exact h
      | cons b l' =>
          by_cases h : key a = key b
          · intro hx
            rw [dedupLastK, if_pos h] at hx
            exact List.mem_cons_of_mem a (ih hx)
          · intro hx
            rw [dedupLastK, if_neg h] at hx
            rcases List.mem_cons.mp hx with rfl | hx
            · exact List.mem_cons_self x _
            · exact List.mem_cons_of_mem a (ih hx)

theorem key_ne_of_sorted_head {a b x : α} {l : List α}
    (hp : (a :: b :: l).Pairwise (fun u v => pairLE (key u) (key v)))
    (hne : key a ≠ key b) (hx : x ∈ b :: l) : key x ≠ key a := by
  rcases List.pairwise_cons.mp hp with ⟨ha, hbl⟩
  rcases List.mem_cons.mp hx with rfl | hx
  · exact fun h => hne h.symm
  · intro hxa
    rcases List.pairwise_cons.mp hbl with ⟨hb, _⟩
    have h1 : pairLE (key a) (key b) := ha b (List.mem_cons_self b l)
    have h2 : pairLE (key b) (key x) := hb x hx
    exact hne (pairLE_antisymm h1 (hxa ▸ h2))

/-- Last-wins lookup in a key-sorted list after dedup: the entry found for a
key is exactly the last element with that key. -/
theorem find?_dedupLastK (k : ℕ × ℕ) : ∀ l : List α,
    l.Pairwise (fun x y => pairLE (key x) (key y)) →
    (dedupLastK key l).find? (fun x => decide (key x = k)) =
      lastOf (l.filter (fun x => decide (key x = k))) := by
  intro l
  induction l with
  | nil => intro _; rfl
  | cons a l ih =>
      intro hp
      cases l with
      | nil =>
          by_cases h : key a = k <;>
            simp [dedupLastK, List.find?_cons, List.filter_cons, h, lastOf]
      | cons b l' =>
          have hp' : (b :: l').Pairwise (fun x y => pairLE (key x) (key y)) :=
            (List.pairwise_cons.mp hp).2
          by_cases h : key a = key b
          · rw [dedupLastK, if_pos h, ih hp']
            by_cases hk : key a = k
            · have hbk : key b = k := h ▸ hk
              simp [List.filter_cons, hk, hbk, lastOf_cons_cons]
            · simp [List.filter_cons, hk]
          · rw [dedupLastK, if_neg h]
            by_cases hk : key a = k
            · have hnone : (b :: l').filter (fun x => decide (key x = k)) = [] := by
                rw [List.filter_eq_nil_iff]
                intro y hy
                simp only [decide_eq_true_eq]
                exact fun hyk => key_ne_of_sorted_head key hp h hy (hyk.trans hk.symm)
              simp [List.find?_cons, List.filter_cons, hk, hnone, lastOf]
            · simp [List.find?_cons, List.filter_cons, hk, ih hp']

/-- After dedup, a key-sorted list is strictly sorted on keys. -/
theorem sortedLT_dedupLastK : ∀ l : List α,
    l.Pairwise (fun x y => pairLE (key x) (key y)) →
    (dedupLastK key l).Pairwise (fun x y => pairLT (key x) (key y)) := by
  intro l
  induction l with
  | nil => intro _; simp [dedupLastK]
  | cons a l ih =>
      intro hp
      cases l with
      | nil => simp [dedupLastK]
      | cons b l' =>
          have hp' : (b :: l').Pairwise (fun x y => pairLE (key x) (key y)) :=
            (List.pairwise_cons.mp hp).2
          by_cases h : key a = key b
          · rw [dedupLastK, if_pos h]
            exact ih hp'
          · rw [dedupLastK, if_neg h]
            refine List.pairwise_cons.mpr ⟨?_, ih hp'⟩
            intro x hx
            have hxm : x ∈ b :: l' := mem_dedupLastK key hx
            have hle : pairLE (key a) (key x) :=
              (List.pairwise_cons.mp hp).1 x hxm
            exact pairLT_of_pairLE_ne hle
              (fun he => key_ne_of_sorted_head key hp h hxm he.symm)

/-- Combined dedup lookup: sorting then keeping the last of each key run
finds, for each key, the last matching element of the original list. -/
theorem dedupSortK_find (k : ℕ × ℕ) (l : List α) :
    (dedupSortK key l).find? (fun x => decide (key x = k)) =
      lastOf (l.filter (fun x => decide (key x = k))) := by
  unfold dedupSortK
  rw [find?_dedupLastK key k _ (sortedK_sortK key l), filter_sortK]

theorem sortedLT_dedupSortK (l : List α) :
    (dedupSortK key l).Pairwise (fun x y => pairLT (key x) (key y)) :=
  sortedLT_dedupLastK key _ (sortedK_sortK key l)

theorem mem_dedupSortK {x : α} {l : List α} (h : x ∈ dedupSortK key l) :
    x ∈ l :=
  (mem_sortK key).mp (mem_dedupLastK key h)

/-- In a strictly key-sorted list, keys identify elements. -/
theorem eq_of_key_eq_of_pairwiseLT {x y : α} : ∀ {l : List α},
    l.Pairwise (fun u v => pairLT (key u) (key v)) →
    x ∈ l → y ∈ l → key x = key y → x = y := by
  intro l
  induction l with
  | nil => intro _ hx; exact absurd hx (List.not_mem_nil x)
  | cons c l ih =>
      intro hp hx hy hk
      rcases List.pairwise_cons.mp hp with ⟨hc, hl⟩
      rcases List.mem_cons.mp hx with hxc | hx
      · rcases List.mem_cons.mp hy with hyc | hy
        · exact hxc.trans hyc.symm
        · have ht := hc y hy
          rw [← hxc, hk] at ht
          exact absurd ht (not_pairLT_self _)
      · rcases List.mem_cons.mp hy with hyc | hy
        · have ht := hc x hx
          rw [← hyc, ← hk] at ht
          exact absurd ht (not_pairLT_self _)
        · exact ih hl hx hy hk

/-- Membership in a strictly key-sorted list is equivalent to being found
by key. -/
theorem find?_eq_some_of_mem {x : α} : ∀ {l : List α},
    l.Pairwise (fun u v => pairLT (key u) (key v)) →
    x ∈ l → l.find? (fun y => decide (key y = key x)) = some x := by
  intro l
  induction l with
  | nil => intro _ hx; exact absurd hx (List.not_mem_nil x)
  | cons c l ih =>
      intro hp hx
      rcases List.pairwise_cons.mp hp with ⟨hc, hl⟩
      rcases List.mem_cons.mp hx with rfl | hx
      · simp [List.find?_cons]
      · have hne : key c ≠ key x := pairLT_ne (hc x hx)
        simp [List.find?_cons, hne, ih hl hx]

/-- In a strictly key-sorted list each key occurs at most once. -/
theorem length_filter_le_one_of_pairwiseLT (k : ℕ × ℕ) : ∀ {l : List α},
    l.Pairwise (fun u v => pairLT (key u) (key v)) →
    (l.filter (fun x => decide (key x = k))).length ≤ 1 := by
  intro l
  induction l with
  | nil => intro _; simp
  | cons c l ih =>
      intro hp
      rcases List.pairwise_cons.mp hp with ⟨hc, hl⟩
      by_cases h : key c = k
      · have hnil : l.filter (fun x => decide (key x = k)) = [] := by
          rw [List.filter_eq_nil_iff]
          intro y hy
          simp only [decide_eq_true_eq]
          intro hyk
          exact not_pairLT_self _ ((h.trans hyk.symm) ▸ hc y hy)
        simp [List.filter_cons, h, hnil]
      · simp only [List.filter_cons, h]
        simpa using ih hl

end Keyed

theorem listMin_le_seed : ∀ (l : List ℕ) (n : ℕ), listMin n l ≤ n := by
  intro l
  induction l with
  | nil => intro n; exact le_refl n
  | cons a l ih =>
      intro n
      exact (ih (Nat.min n a)).trans (Nat.min_le_left n a)

theorem listMin_le_mem : ∀ (l : List ℕ) (n x : ℕ), x ∈ l → listMin n l ≤ x := by
  intro l
  induction l with
  | nil => intro n x hx; exact absurd hx (List.not_mem_nil x)
  | cons a l ih =>
      intro n x hx
      rcases List.mem_cons.mp hx with rfl | hx
      · exact (listMin_le_seed l (Nat.min n x)).trans (Nat.min_le_right n x)
      · exact ih (Nat.min n a) x hx

theorem seed_le_listMax : ∀ (l : List ℕ) (n : ℕ), n ≤ listMax n l := by
  intro l
  induction l with
  | nil => intro n; exact le_refl n
  | cons a l ih =>
      intro n
      exact (Nat.le_max_left n a).trans (ih (Nat.max n a))

theorem mem_le_listMax : ∀ (l : List ℕ) (n x : ℕ), x ∈ l → x ≤ listMax n l := by
  intro l
  induction l with
  | nil => intro n x hx; exact absurd hx (List.not_mem_nil x)
  | cons a l ih =>
      intro n x hx
      rcases List.mem_cons.mp hx with rfl | hx
      · exact (Nat.le_max_right n x).trans (seed_le_listMax l (Nat.max n x))
      · exact ih (Nat.max n a) x hx

theorem mem_natRange : ∀ (n s m : ℕ), m ∈ natRange s n ↔ s ≤ m ∧ m < s + n := by
  intro n
  induction n with
  | zero => intro s m; simp [natRange]
  | succ n ih =>
      intro s m
      rw [natRange]
      simp only [List.mem_cons, ih (s + 1) m]
      omega

theorem pairwise_natRange : ∀ n s, (natRange s n).Pairwise (· < ·) := by
  intro n
  induction n with
  | zero => intro s; simp [natRange]
  | succ n ih =>
      intro s
      rw [natRange]
      refine List.pairwise_cons.mpr ⟨?_, ih (s + 1)⟩
      intro m hm
      exact lt_of_lt_of_le (Nat.lt_succ_self s) ((mem_natRange n (s + 1) m).mp hm).1

theorem carried_nil (look : ℕ → Option ℚ) (acc : Option ℚ) :
    carried look acc [] = acc := rfl

theorem carried_cons (look : ℕ → Option ℚ) (acc : Option ℚ) (v : ℕ)
    (l : List ℕ) :
    carried look acc (v :: l) = carried look (stepCarry look acc v) l := rfl

theorem carried_append (look : ℕ → Option ℚ) (acc : Option ℚ)
    (l1 l2 : List ℕ) :
    carried look acc (l1 ++ l2) = carried look (carried look acc l1) l2 :=
  List.foldl_append _ _ _ _

theorem carried_eq_of_all_none {look : ℕ → Option ℚ} {l : List ℕ}
    (h : ∀ u ∈ l, look u = none) (acc : Option ℚ) :
    carried look acc l = acc := by
  induction l generalizing acc with
  | nil => rfl
  | cons v l ih =>
      rw [carried_cons]
      have hv : look v = none := h v (List.mem_cons_self v l)
      rw [show stepCarry look acc v = acc by rw [stepCarry, hv]]
      exact ih (fun u hu => h u (List.mem_cons_of_mem v hu)) acc

theorem carried_none_iff (look : ℕ → Option ℚ) : ∀ l : List ℕ,
    carried look none l = none ↔ ∀ u ∈ l, look u = none := by
  intro l
  induction l using List.reverseRecOn with
  | nil => simp [carried_nil]
  | append_singleton l w ih =>
      rw [carried_append]
      constructor
      · intro h
        rw [carried_cons, carried_nil] at h
        rcases hw : look w with _ | x
        · rw [show stepCarry look (carried look none l) w = carried look none l
              by rw [stepCarry, hw]] at h
          intro u hu
          rcases List.mem_append.mp hu with hu | hu
          · exact (ih.mp h) u hu
          · rw [List.mem_singleton.mp hu]; exact hw
        · rw [show stepCarry look (carried look none l) w = some x
              by rw [stepCarry, hw]] at h
          exact absurd h (by simp)
      · intro h
        rw [carried_eq_of_all_none (fun u hu => h u (List.mem_append_left _ hu))]
        rw [carried_cons, carried_nil]
        rw [show stepCarry look none w = none
            by rw [stepCarry, h w (List.mem_append_right l (List.mem_singleton_self w))]]

/-- The carried value of a scan started empty is exactly the value at the
last position where the lookup is non-missing. -/
theorem carried_some_iff (look : ℕ → Option ℚ) : ∀ (l : List ℕ) (x : ℚ),
    carried look none l = some x ↔
      ∃ l1 w l2, l = l1 ++ w :: l2 ∧ look w = some x ∧
        ∀ u ∈ l2, look u = none := by
  intro l
  induction l using List.reverseRecOn with
  | nil =>
      intro x
      simp only [carried_nil]
      constructor
      · intro h; exact absurd h (by simp)
      · rintro ⟨l1, w, l2, hsplit, _, _⟩
        exact absurd hsplit (by simp)
  | append_singleton l w ih =>
      intro x
      rw [carried_append, carried_cons, carried_nil]
      rcases hw : look w with _ | y
      · rw [show stepCarry look (carried look none l) w = carried look none l
            by rw [stepCarry, hw]]
        rw [ih x]
        constructor
        · rintro ⟨l1, w', l2, hsplit, hv, hnone⟩
          refine ⟨l1, w', l2 ++ [w], by rw [hsplit]; simp, hv, ?_⟩
          intro u hu
          rcases List.mem_append.mp hu with hu | hu
          · exact hnone u hu
          · rw [List.mem_singleton.mp hu]; exact hw
        · rintro ⟨l1, w', l2, hsplit, hv, hnone⟩
          rcases List.eq_nil_or_concat l2 with rfl | ⟨l2', z, rfl⟩
          · have h2 := List.append_inj' hsplit (by simp)
            have hww : w = w' := by simpa using h2.2
            rw [← hww, hw] at hv
            exact absurd hv (by simp)
          · simp only [List.concat_eq_append] at hsplit hnone
            have h2 : l ++ [w] = (l1 ++ w' :: l2') ++ [z] := by
              rw [hsplit]; simp
            have h3 := List.append_inj' h2 (by simp)
            have hz : w = z := by simpa using h3.2
            refine ⟨l1, w', l2', h3.1, hv, ?_⟩
            intro u hu
            exact hnone u (List.mem_append_left _ hu)
      · rw [show stepCarry look (carried look none l) w = some y
            by rw [stepCarry, hw]]
        constructor
        · intro h
          refine ⟨l, w, [], rfl, ?_, by simp⟩
          rw [hw]; exact h
        · rintro ⟨l1, w', l2, hsplit, hv, hnone⟩
          rcases List.eq_nil_or_concat l2 with rfl | ⟨l2', z, rfl⟩
          · have h2 := List.append_inj' hsplit (by simp)
            have hww : w = w' := by simpa using h2.2
            rw [← hww, hw] at hv
            exact hv
          · simp only [List.concat_eq_append] at hsplit hnone
            have h2 : l ++ [w] = (l1 ++ w' :: l2') ++ [z] := by
              rw [hsplit]; simp
            have h3 := List.append_inj' h2 (by simp)
            have hz : w = z := by simpa using h3.2
            have hwn : look w = none :=
              hz ▸ hnone z (List.mem_append_right _ (List.mem_singleton_self z))
            rw [hwn] at hw
            exact absurd hw (by simp)

theorem ffillScan_map_fst (look : ℕ → Option ℚ) : ∀ (vs : List ℕ) (acc : Option ℚ),
    (ffillScan look vs acc).map Prod.fst = vs := by
  intro vs
  induction vs with
  | nil => intro acc; rfl
  | cons v vs ih => intro acc; simp [ffillScan, ih]

/-- Position-wise description of the forward-fill scan: the cell at vintage
`v` holds the value carried over the inclusive prefix of vintages up to `v`. -/
theorem mem_ffillScan (look : ℕ → Option ℚ) : ∀ (vs : List ℕ), vs.Nodup →
    ∀ (acc : Option ℚ) (v : ℕ) (o : Option ℚ),
    ((v, o) ∈ ffillScan look vs acc ↔ v ∈ vs ∧ o = carried look acc (upTo v vs)) := by
  intro vs
  induction vs with
  | nil => intro _ acc v o; simp [ffillScan]
  | cons w vs ih =>
      intro hnd acc v o
      rcases List.nodup_cons.mp hnd with ⟨hw, hnd'⟩
      rw [ffillScan]
      by_cases hv : v = w
      · subst hv
        rw [upTo, if_pos rfl]
        constructor
        · intro hmem
          rcases List.mem_cons.mp hmem with heq | hmem
          · refine ⟨List.mem_cons_self v vs, ?_⟩
            rw [carried_cons, carried_nil]
            exact congrArg Prod.snd heq
          · exact absurd ((ih hnd' _ v o).mp hmem).1 hw
        · rintro ⟨_, ho⟩
          rw [carried_cons, carried_nil] at ho
          subst ho
          exact List.mem_cons_self _ _
      · rw [upTo, if_neg (fun h => hv h.symm)]
        simp only [List.mem_cons, Prod.mk.injEq]
        constructor
        · rintro (⟨rfl, rfl⟩ | hmem)
          · exact absurd rfl hv
          · rcases (ih hnd' _ v o).mp hmem with ⟨hm, ho⟩
            exact ⟨Or.inr hm, by rw [carried_cons]; exact ho⟩
        · rintro ⟨hm, ho⟩
          rcases hm with rfl | hm
          · exact absurd rfl hv
          · exact Or.inr ((ih hnd' _ v o).mpr ⟨hm, by rw [carried_cons] at ho; exact ho⟩)

/-- Decomposition of an ascending duplicate-free vintage list at a member:
the inclusive prefix `upTo` consists of the strictly smaller vintages
followed by the member itself. -/
theorem upTo_decomp {v : ℕ} : ∀ {vs : List ℕ}, vs.Pairwise (· < ·) → v ∈ vs →
    ∃ p s, vs = p ++ v :: s ∧ upTo v vs = p ++ [v] ∧
      (∀ u ∈ p, u < v) ∧ (∀ u ∈ s, v < u) := by
  intro vs
  induction vs with
  | nil => intro _ hv; exact absurd hv (List.not_mem_nil v)
  | cons w vs ih =>
      intro hp hv
      rcases List.pairwise_cons.mp hp with ⟨hw, hp'⟩
      by_cases hvw : w = v
      · subst hvw
        refine ⟨[], vs, rfl, ?_, by simp, hw⟩
        rw [upTo, if_pos rfl]
        simp
      · have hv' : v ∈ vs := by
          rcases List.mem_cons.mp hv with heq | hv'
          · exact absurd heq.symm hvw
          · exact hv'
        rcases ih hp' hv' with ⟨p, s, hsplit, hupto, hps, hss⟩
        refine ⟨w :: p, s, by rw [hsplit]; rfl, ?_, ?_, hss⟩
        · rw [upTo, if_neg hvw, hupto]
          rfl
        · intro u hu
          rcases List.mem_cons.mp hu with heq | hu
          · rw [heq]; exact hw v hv'
          · exact hps u hu

theorem firstIdx_eq_none_iff {α : Type} (p : α → Bool) : ∀ l : List α,
    firstIdx p l = none ↔ ∀ x ∈ l, p x = false := by
  intro l
  induction l with
  | nil => simp [firstIdx]
  | cons a l ih =>
      by_cases h : p a
      · simp [firstIdx, h]
      · rw [firstIdx, if_neg h, Option.map_eq_none', ih]
        constructor
        · intro hall x hx
          rcases List.mem_cons.mp hx with heq | hx
          · rw [heq]; exact Bool.eq_false_iff.mpr h
          · exact hall x hx
        · intro hall x hx
          exact hall x (List.mem_cons_of_mem a hx)

theorem firstIdx_eq_some {α : Type} (p : α → Bool) : ∀ (l : List α) (i : ℕ),
    firstIdx p l = some i →
    ∃ h : i < l.length, p (l.get ⟨i, h⟩) = true ∧
      ∀ j (hj : j < l.length), j < i → p (l.get ⟨j, hj⟩) = false := by
  intro l
  induction l with
  | nil => intro i h; exact absurd h (by simp [firstIdx])
  | cons a l ih =>
      intro i h
      by_cases ha : p a
      · rw [firstIdx, if_pos ha] at h
        have : i = 0 := (Option.some_inj.mp h).symm
        subst this
        exact ⟨Nat.succ_pos _, ha, fun j hj hji => absurd hji (Nat.not_lt_zero j)⟩
      · rw [firstIdx, if_neg ha] at h
        rcases Option.map_eq_some'.mp h with ⟨i', hi', rfl⟩
        rcases ih i' hi' with ⟨hlt, hget, hbefore⟩
        refine ⟨Nat.succ_lt_succ hlt, hget, ?_⟩
        intro j hj hji
        cases j with
        | zero => exact Bool.eq_false_iff.mpr ha
        | succ j' =>
            exact hbefore j' (Nat.lt_of_succ_lt_succ hj) (Nat.lt_of_succ_lt_succ hji)

/-! ### Helper lemmas for the claim statements -/

theorem scanCols_eq_some (rows : List (List String)) :
    ∀ (n j j' : ℕ), scanCols rows j n = some j' →
      j ≤ j' ∧ j' < j + n ∧ colQualifies rows j' = true ∧
        ∀ i, j ≤ i → i < j' → colQualifies rows i = false := by
  intro n
  induction n with
  | zero => intro j j' h; exact absurd h (by simp [scanCols])
  | succ n ih =>
      intro j j' h
      by_cases hq : colQualifies rows j
      · rw [scanCols, if_pos hq] at h
        have hj : j = j' := Option.some_inj.mp h
        subst hj
        exact ⟨le_refl j, by omega, hq, fun i hi1 hi2 => absurd hi1 (by omega)⟩
      · rw [scanCols, if_neg hq] at h
        rcases ih (j + 1) j' h with ⟨h1, h2, h3, h4⟩
        refine ⟨by omega, by omega, h3, ?_⟩
        intro i hi1 hi2
        by_cases hij : i = j
        · rw [hij]; exact Bool.eq_false_iff.mpr hq
        · exact h4 i (by omega) hi2

/-! ### Claim theorems -/

set_option maxHeartbeats 1000000 in
/-- C10: a filename ending in a four-digit, two-digit, two-digit pattern
before the csv extension that does not denote a real calendar date makes
parse_vintage_from_filename return missing, and main skips the file with
the vintage-missing diagnostic instead of raising; a vintage is produced
only for trailing digits that form a valid calendar date. -/
theorem claim_C10_invalid_filename_dates_skipped :
    (∀ (name : String) (y mo d : ℕ), trailingDate name = some (y, mo, d) →
      validDate y mo d = false → parseVintageFromFilename name = none)
    ∧ parseVintageFromFilename "AP2Y_2024-13-40.csv" = none
    ∧ (∀ f : RawFile, parseVintageFromFilename f.name = none →
        parseSnapshot f = SnapResult.skipped "vintage missing")
    ∧ (∀ (name : String) (v : ℕ), parseVintageFromFilename name = some v →
        ∃ y mo d, trailingDate name = some (y, mo, d) ∧ validDate y mo d = true ∧
          v = encodeDate y mo d) := by
  refine ⟨?_, ?_, ?_, ?_⟩
  · intro name y mo d htd hvd
    simp [parseVintageFromFilename, htd, hvd]
  · decide
  · intro f h
    rw [parseSnapshot.eq_def, h]
  · intro name v h
    rcases htd : trailingDate name with _ | ⟨y, mo, d⟩
    · simp [parseVintageFromFilename, htd] at h
    · simp only [parseVintageFromFilename, htd, Option.some_bind] at h
      by_cases hvd : validDate y mo d
      · rw [if_pos hvd] at h
        exact ⟨y, mo, d, rfl, hvd, (Option.some_inj.mp h).symm⟩
      · rw [if_neg hvd] at h
        exact absurd h (by simp)

set_option maxHeartbeats 1000000 in
/-- C10 witness: the claim applied to the concrete invalid filename of the
claim and to a concrete file carrying it. -/
theorem claim_C10_witness :
    parseVintageFromFilename "AP2Y_2024-13-40.csv" = none ∧
    parseSnapshot ⟨"AP2Y_2024-13-40.csv", "2024 JAN,100"⟩ =
      SnapResult.skipped "vintage missing" :=
  ⟨claim_C10_invalid_filename_dates_skipped.1 "AP2Y_2024-13-40.csv" 2024 13 40
      (by decide) (by decide),
    claim_C10_invalid_filename_dates_skipped.2.2.1
      ⟨"AP2Y_2024-13-40.csv", "2024 JAN,100"⟩ (by decide)⟩

/-- C3: when the concatenated collection holds several rows with the same
observation month and vintage date, the assembler dedup retains exactly
the row that occurs last after sorting all rows by that key ascending. -/
theorem claim_C3_assembler_last_wins (tidy : List Row) (k : ℕ × ℕ)
    (hdup : 1 < (tidy.filter (fun r => decide (rowKey r = k))).length) :
    ∃ r : Row,
      lastOf ((sortK rowKey tidy).filter (fun r => decide (rowKey r = k))) = some r ∧
      (dedupRows tidy).find? (fun r => decide (rowKey r = k)) = some r := by
  have h1 : (dedupRows tidy).find? (fun r => decide (rowKey r = k)) =
      lastOf (tidy.filter (fun r => decide (rowKey r = k))) :=
    dedupSortK_find rowKey k tidy
  have h2 : (sortK rowKey tidy).filter (fun r => decide (rowKey r = k)) =
      tidy.filter (fun r => decide (rowKey r = k)) :=
    filter_sortK rowKey k tidy
  rcases hl : lastOf (tidy.filter (fun r => decide (rowKey r = k))) with _ | r
  · rw [lastOf_eq_none_iff] at hl
    rw [hl] at hdup
    exact absurd hdup (by simp)
  · exact ⟨r, by rw [h2, hl], by rw [h1, hl]⟩

/-- C3 witness: two rows with the same key and differing values; the
retained row is the one sorting last. -/
theorem claim_C3_witness :
    ∃ r : Row,
      lastOf ((sortK rowKey [⟨0, 10, 1⟩, ⟨0, 10, 2⟩]).filter
        (fun r => decide (rowKey r = (0, 10)))) = some r ∧
      (dedupRows [⟨0, 10, 1⟩, ⟨0, 10, 2⟩]).find?
        (fun r => decide (rowKey r = (0, 10))) = some r :=
  claim_C3_assembler_last_wins [⟨0, 10, 1⟩, ⟨0, 10, 2⟩] (0, 10) (by decide)

/-- C9: the whole pipeline is a deterministic function of its input
files, so re-running on the same fixed inputs yields identical output. -/
theorem claim_C9_assembly_deterministic (files1 files2 : List RawFile)
    (h : files1 = files2) : mainRun files1 = mainRun files2 := by
  rw [h]

/-- C9 witness: two runs on the same concrete snapshot agree. -/
theorem claim_C9_witness :
    mainRun [⟨"AP2Y_2024-06-10.csv",
      "Title: AP2Y\n\n2021 MAY,Series\n2024 JAN,100\n2024 FEB,105\n"⟩] =
    mainRun [⟨"AP2Y_2024-06-10.csv",
      "Title: AP2Y\n\n2021 MAY,Series\n2024 JAN,100\n2024 FEB,105\n"⟩] :=
  claim_C9_assembly_deterministic _ _ rfl

set_option maxHeartbeats 1000000 in
/-- C5: for a decoded table with at least two columns, the value column is
the leftmost column after the first in which at least one entry, with
thousands separators removed, coerces to a number; when none qualifies the
snapshot is discarded with the no-numeric-column reason; a column holding
"1,234" and "N/A" qualifies, with "1,234" coercing to 1234 and "N/A" to
missing. -/
theorem claim_C5_value_column_selection :
    (∀ (tbl : Table) (j : ℕ), selectValueCol tbl = some j →
      1 ≤ j ∧ j < tbl.header.length ∧ colQualifies tbl.rows j = true ∧
      ∀ i, 1 ≤ i → i < j → colQualifies tbl.rows i = false)
    ∧ (∀ (f : RawFile) (vint : ℕ) (tbl : Table),
        parseVintageFromFilename f.name = some vint →
        decodeCsv ((splitLines f.text).drop (findTableStart (splitLines f.text))) =
          some tbl →
        tbl.rows.isEmpty = false → ¬ tbl.header.length < 2 →
        selectValueCol tbl = none →
        parseSnapshot f = SnapResult.skipped "no numeric-like value column")
    ∧ colQualifies [["2024 JAN", "1,234"], ["2024 FEB", "N/A"]] 1 = true
    ∧ parseNum (stripCommas "1,234") = some 1234
    ∧ parseNum (stripCommas "N/A") = none := by
  refine ⟨?_, ?_, by decide, by decide, by decide⟩
  · intro tbl j h
    rcases scanCols_eq_some tbl.rows (tbl.header.length - 1) 1 j h with
      ⟨h1, h2, h3, h4⟩
    exact ⟨h1, by omega, h3, fun i hi1 hi2 => h4 i hi1 hi2⟩
  · intro f vint tbl hv hd hs1 hs2 hsel
    rw [parseSnapshot.eq_def, hv]
    simp only [hd, hs1, hs2, hsel]
    simp

set_option maxHeartbeats 1000000 in
/-- C5 witness: the selection characterization applied to a concrete table
whose value column holds "1,234" and "N/A". -/
theorem claim_C5_witness :
    1 ≤ 1 ∧ 1 < (["Month", "Value"] : List String).length ∧
      colQualifies [["2024 JAN", "1,234"], ["2024 FEB", "N/A"]] 1 = true ∧
      ∀ i, 1 ≤ i → i < 1 →
        colQualifies [["2024 JAN", "1,234"], ["2024 FEB", "N/A"]] i = false :=
  claim_C5_value_column_selection.1
    ⟨["Month", "Value"], [["2024 JAN", "1,234"], ["2024 FEB", "N/A"]]⟩ 1 (by decide)

/-- C8: with zero input files, or zero surviving snapshots, the run
produces no output; output exists only when assembly fully succeeds, and
it is exactly the assembled panel. -/
theorem claim_C8_run_fatal_no_output :
    (∀ files : List RawFile, files = [] → mainRun files = none)
    ∧ (∀ files : List RawFile, parsedParts files = [] → mainRun files = none)
    ∧ (∀ (files : List RawFile) (panel : List Row), mainRun files = some panel →
        parsedParts files ≠ [] ∧
        assemble (tidyOfParts (parsedParts files)) = some panel) := by
  refine ⟨?_, ?_, ?_⟩
  · intro files h
    subst h
    rfl
  · intro files h
    rw [mainRun]
    by_cases he : files.isEmpty = true
    · rw [if_pos he]
    · rw [if_neg he]
      by_cases hf : (parsedResults files).any isFatalR = true
      · rw [if_pos hf]
      · rw [if_neg hf, h]
        simp
  · intro files panel h
    rw [mainRun] at h
    by_cases he : files.isEmpty = true
    · rw [if_pos he] at h
      exact absurd h (by simp)
    · rw [if_neg he] at h
      by_cases hf : (parsedResults files).any isFatalR = true
      · rw [if_pos hf] at h
        exact absurd h (by simp)
      · rw [if_neg hf] at h
        by_cases hp : (parsedParts files).isEmpty = true
        · rw [if_pos hp] at h
          exact absurd h (by simp)
        · rw [if_neg hp] at h
          exact ⟨by simpa using hp, h⟩

set_option maxHeartbeats 4000000 in
/-- C8 witness: the empty run and a no-survivor run write nothing, and a
successful run emits exactly the assembled panel. -/
theorem claim_C8_witness :
    mainRun ([] : List RawFile) = none ∧
    mainRun [⟨"nodate.csv", "2024 JAN,100"⟩] = none ∧
    (parsedParts [sampleGoodFile] ≠ [] ∧
      assemble (tidyOfParts (parsedParts [sampleGoodFile])) =
        some [⟨encodeMonth 2024 1, encodeDate 2024 6 10, 100⟩,
              ⟨encodeMonth 2024 2, encodeDate 2024 6 10, 105⟩]) :=
  ⟨claim_C8_run_fatal_no_output.1 [] rfl,
   claim_C8_run_fatal_no_output.2.1 [⟨"nodate.csv", "2024 JAN,100"⟩] (by decide),
   claim_C8_run_fatal_no_output.2.2 [sampleGoodFile]
     [⟨encodeMonth 2024 1, encodeDate 2024 6 10, 100⟩,
      ⟨encodeMonth 2024 2, encodeDate 2024 6 10, 105⟩] (by decide)⟩

set_option maxHeartbeats 1000000 in
/-- C4 counterexample: in a text whose first line is "2021 Products,
thousands", the first line matching a year-then-month-name pattern (the
wording of the claim, embodied by specLineMatchesMonthName) is line 1,
yet the source starts the table at line 0, because its regex accepts any
3-to-9-letter word after the year. -/
theorem claim_C4_counterexample :
    firstIdx specLineMatchesMonthName
      ["2021 Products, thousands", "2021 MAY,100"] = some 1 ∧
    findTableStart ["2021 Products, thousands", "2021 MAY,100"] = 0 ∧
    findTableStart ["2021 Products, thousands", "2021 MAY,100"] ≠ 1 := by
  refine ⟨by decide, by decide, by decide⟩

set_option maxHeartbeats 1000000 in
/-- C4 (amended): table parsing starts at the first line matching the
source pattern — optional leading whitespace, four digits, whitespace,
then any alphabetic word of 3 to 9 letters at a word boundary, month name
or not; if no line matches, it starts right after the first blank line; if
there is none either, it starts at line 0; and a decode that is empty or
has fewer than 2 columns discards the snapshot with reason "unexpected
shape" while processing continues. -/
theorem claim_C4_table_localization :
    (∀ (lines : List String) (i : ℕ), firstIdx lineMatchesPat lines = some i →
      findTableStart lines = i ∧
      ∃ h : i < lines.length, lineMatchesPat (lines.get ⟨i, h⟩) = true ∧
        ∀ j (hj : j < lines.length), j < i →
          lineMatchesPat (lines.get ⟨j, hj⟩) = false)
    ∧ (∀ (lines : List String) (i : ℕ),
        (∀ l ∈ lines, lineMatchesPat l = false) →
        firstIdx isBlankLine lines = some i →
        findTableStart lines = i + 1 ∧
        ∃ h : i < lines.length, isBlankLine (lines.get ⟨i, h⟩) = true ∧
          ∀ j (hj : j < lines.length), j < i →
            isBlankLine (lines.get ⟨j, hj⟩) = false)
    ∧ (∀ lines : List String, (∀ l ∈ lines, lineMatchesPat l = false) →
        (∀ l ∈ lines, isBlankLine l = false) → findTableStart lines = 0)
    ∧ (∀ (f : RawFile) (vint : ℕ) (tbl : Table),
        parseVintageFromFilename f.name = some vint →
        decodeCsv ((splitLines f.text).drop (findTableStart (splitLines f.text))) =
          some tbl →
        (tbl.rows.isEmpty || decide (tbl.header.length < 2)) = true →
        parseSnapshot f = SnapResult.skipped "unexpected shape") := by
  refine ⟨?_, ?_, ?_, ?_⟩
  · intro lines i h
    refine ⟨by rw [findTableStart, h], firstIdx_eq_some lineMatchesPat lines i h⟩
  · intro lines i hall h
    have hnone : firstIdx lineMatchesPat lines = none :=
      (firstIdx_eq_none_iff lineMatchesPat lines).mpr hall
    refine ⟨by rw [findTableStart, hnone, h], firstIdx_eq_some isBlankLine lines i h⟩
  · intro lines hall hblank
    have h1 : firstIdx lineMatchesPat lines = none :=
      (firstIdx_eq_none_iff lineMatchesPat lines).mpr hall
    have h2 : firstIdx isBlankLine lines = none :=
      (firstIdx_eq_none_iff isBlankLine lines).mpr hblank
    rw [findTableStart, h1, h2]
  · intro f vint tbl hv hd hshape
    rw [parseSnapshot.eq_def, hv]
    simp only [hd]
    rw [if_pos hshape]

set_option maxHeartbeats 1000000 in
/-- C4 witness: the localization characterization applied to concrete
texts exercising the pattern case and the unexpected-shape discard. -/
theorem claim_C4_witness :
    (findTableStart ["Title: AP2Y", "", "2024 JAN,100", "2024 FEB,105"] = 2 ∧
      ∃ h : 2 < (["Title: AP2Y", "", "2024 JAN,100", "2024 FEB,105"] :
          List String).length,
        lineMatchesPat ((["Title: AP2Y", "", "2024 JAN,100", "2024 FEB,105"] :
          List String).get ⟨2, h⟩) = true ∧
        ∀ j (hj : j < (["Title: AP2Y", "", "2024 JAN,100", "2024 FEB,105"] :
            List String).length), j < 2 →
          lineMatchesPat ((["Title: AP2Y", "", "2024 JAN,100", "2024 FEB,105"] :
            List String).get ⟨j, hj⟩) = false) ∧
    findTableStart ["no table here"] = 0 ∧
    parseSnapshot ⟨"AP2Y_2024-06-10.csv", "colA\n"⟩ =
      SnapResult.skipped "unexpected shape" :=
  ⟨claim_C4_table_localization.1
      ["Title: AP2Y", "", "2024 JAN,100", "2024 FEB,105"] 2 (by decide),
   claim_C4_table_localization.2.2.1 ["no table here"] (by decide) (by decide),
   claim_C4_table_localization.2.2.2 ⟨"AP2Y_2024-06-10.csv", "colA\n"⟩
     20240610 ⟨["colA"], []⟩ (by decide) (by decide) (by decide)⟩

/-! ### Lemmas about the assembled panel -/

theorem mem_dedupSortK_iff_of_inj {α : Type} (key : α → ℕ × ℕ)
    (hinj : ∀ a b, key a = key b → a = b) {x : α} {l : List α} :
    x ∈ dedupSortK key l ↔ x ∈ l := by
  constructor
  · exact mem_dedupSortK key
  · intro hx
    have hfil : x ∈ l.filter (fun a => decide (key a = key x)) :=
      List.mem_filter.mpr ⟨hx, by simp⟩
    rcases hlast : lastOf (l.filter (fun a => decide (key a = key x))) with _ | w
    · rw [lastOf_eq_none_iff] at hlast
      rw [hlast] at hfil
      exact absurd hfil (List.not_mem_nil x)
    · have hfind : (dedupSortK key l).find? (fun a => decide (key a = key x)) =
          some w := by
        rw [dedupSortK_find key (key x) l]
        exact hlast
      have hw : w ∈ dedupSortK key l := List.mem_of_find?_eq_some hfind
      have hkey : key w = key x := by
        have := List.find?_some hfind
        simpa using this
      rw [← hinj w x hkey]
      exact hw

theorem pairwise_lt_vintsOf (tidy : List Row) :
    (vintsOf tidy).Pairwise (· < ·) := by
  have h := sortedLT_dedupSortK natKeyOf (tidy.map Row.vintage)
  refine h.imp ?_
  intro a b hab
  simp only [pairLT, natKeyOf] at hab
  rcases hab with h1 | ⟨_, h3⟩
  · exact h1
  · exact absurd h3 (Nat.lt_irrefl 0)

theorem nodup_vintsOf (tidy : List Row) : (vintsOf tidy).Nodup :=
  (pairwise_lt_vintsOf tidy).imp (fun h => Nat.ne_of_lt h)

theorem mem_vintsOf_iff (tidy : List Row) (v : ℕ) :
    v ∈ vintsOf tidy ↔ ∃ r ∈ tidy, r.vintage = v := by
  rw [vintsOf, mem_dedupSortK_iff_of_inj natKeyOf
    (fun a b h => by simpa [natKeyOf] using h), List.mem_map]

theorem monthsLo_le_month {tidy : List Row} {r : Row} (hr : r ∈ tidy) :
    monthsLo tidy ≤ r.month := by
  cases tidy with
  | nil => exact absurd hr (List.not_mem_nil r)
  | cons a rs =>
      exact listMin_le_mem _ _ _ (List.mem_map.mpr ⟨r, hr, rfl⟩)

theorem month_le_monthsHi {tidy : List Row} {r : Row} (hr : r ∈ tidy) :
    r.month ≤ monthsHi tidy := by
  cases tidy with
  | nil => exact absurd hr (List.not_mem_nil r)
  | cons a rs =>
      exact mem_le_listMax _ _ _ (List.mem_map.mpr ⟨r, hr, rfl⟩)

theorem mem_allMonthsOf {tidy : List Row} (hne : tidy ≠ []) (m : ℕ) :
    m ∈ allMonthsOf tidy ↔ monthsLo tidy ≤ m ∧ m ≤ monthsHi tidy := by
  have hlohi : monthsLo tidy ≤ monthsHi tidy := by
    cases tidy with
    | nil => exact absurd rfl hne
    | cons r rs =>
        exact (monthsLo_le_month (List.mem_cons_self r rs)).trans
          (month_le_monthsHi (List.mem_cons_self r rs))
  rw [allMonthsOf, mem_natRange]
  omega

theorem obsAt_eq_lastOf (tidy : List Row) (m v : ℕ) :
    obsAt tidy m v =
      (lastOf (tidy.filter (fun r => decide (rowKey r = (m, v))))).map Row.value := by
  rw [obsAt, dedupRows, dedupSortK_find rowKey (m, v) tidy]

theorem obsAt_ne_none_iff (tidy : List Row) (m v : ℕ) :
    obsAt tidy m v ≠ none ↔ ∃ r ∈ tidy, r.month = m ∧ r.vintage = v := by
  rw [obsAt_eq_lastOf]
  rcases hlast : lastOf (tidy.filter (fun r => decide (rowKey r = (m, v)))) with _ | w
  · rw [lastOf_eq_none_iff] at hlast
    constructor
    · intro h
      exact absurd rfl h
    · rintro ⟨r, hr, hm, hv⟩
      have hmemf : r ∈ tidy.filter (fun r => decide (rowKey r = (m, v))) :=
        List.mem_filter.mpr ⟨hr, by simp [rowKey, hm, hv]⟩
      rw [hlast] at hmemf
      exact absurd hmemf (List.not_mem_nil r)
  · have hw : w ∈ tidy.filter (fun r => decide (rowKey r = (m, v))) :=
      lastOf_mem hlast
    rcases List.mem_filter.mp hw with ⟨hwt, hwk⟩
    simp only [decide_eq_true_eq, rowKey, Prod.mk.injEq] at hwk
    constructor
    · intro _
      exact ⟨w, hwt, hwk.1, hwk.2⟩
    · intro _
      simp

theorem mem_monthRows (look : ℕ → Option ℚ) (m : ℕ) (vs : List ℕ) (r : Row) :
    r ∈ monthRows look m vs ↔
      r.month = m ∧ (r.vintage, some r.value) ∈ ffillScan look vs none := by
  rw [monthRows, List.mem_filterMap]
  constructor
  · rintro ⟨⟨v', o⟩, hmem, hg⟩
    rcases o with _ | x
    · exact absurd hg (by simp)
    · have : r = ⟨m, v', x⟩ := by
        have := hg
        simpa using this.symm
      subst this
      exact ⟨rfl, hmem⟩
  · rintro ⟨hm, hmem⟩
    refine ⟨(r.vintage, some r.value), hmem, ?_⟩
    simp [← hm]

theorem mem_concatMapRows (f : ℕ → List Row) : ∀ (ms : List ℕ) (r : Row),
    r ∈ concatMapRows f ms ↔ ∃ m ∈ ms, r ∈ f m := by
  intro ms
  induction ms with
  | nil => intro r; simp [concatMapRows]
  | cons m ms ih =>
      intro r
      rw [concatMapRows, List.mem_append, ih r]
      constructor
      · rintro (h | ⟨m', hm', hr⟩)
        · exact ⟨m, List.mem_cons_self m ms, h⟩
        · exact ⟨m', List.mem_cons_of_mem m hm', hr⟩
      · rintro ⟨m', hm', hr⟩
        rcases List.mem_cons.mp hm' with heq | hm'
        · exact Or.inl (heq ▸ hr)
        · exact Or.inr ⟨m', hm', hr⟩

theorem assemble_eq_some {tidy panel : List Row} (h : assemble tidy = some panel) :
    tidy ≠ [] ∧
    panel = concatMapRows
      (fun m => monthRows (obsAt tidy m) m (vintsOf tidy)) (allMonthsOf tidy) := by
  cases tidy with
  | nil => exact absurd h (by simp [assemble])
  | cons r rs =>
      rw [assemble] at h
      exact ⟨by simp, (Option.some_inj.mp h).symm⟩

theorem mem_assemble {tidy panel : List Row} (h : assemble tidy = some panel)
    (r : Row) :
    r ∈ panel ↔ r.month ∈ allMonthsOf tidy ∧
      (r.vintage, some r.value) ∈
        ffillScan (obsAt tidy r.month) (vintsOf tidy) none := by
  rcases assemble_eq_some h with ⟨hne, rfl⟩
  rw [mem_concatMapRows]
  constructor
  · rintro ⟨m, hm, hr⟩
    rcases (mem_monthRows _ _ _ _).mp hr with ⟨hrm, hmem⟩
    subst hrm
    exact ⟨hm, hmem⟩
  · rintro ⟨hm, hmem⟩
    exact ⟨r.month, hm, (mem_monthRows _ _ _ _).mpr ⟨rfl, hmem⟩⟩

theorem pairwise_filterMap_of {β γ : Type} (g : β → Option γ)
    {R : β → β → Prop} {S : γ → γ → Prop}
    (hgs : ∀ a b x y, R a b → g a = some x → g b = some y → S x y) :
    ∀ l : List β, l.Pairwise R → (l.filterMap g).Pairwise S := by
  intro l
  induction l with
  | nil => intro _; simp
  | cons a l ih =>
      intro hp
      rcases List.pairwise_cons.mp hp with ⟨ha, hl⟩
      rw [List.filterMap_cons]
      rcases hga : g a with _ | x
      · exact ih hl
      · refine List.pairwise_cons.mpr ⟨?_, ih hl⟩
        intro y hy
        rcases List.mem_filterMap.mp hy with ⟨b, hb, hgb⟩
        exact hgs a b x y (ha b hb) hga hgb

theorem pairwise_vintage_monthRows (look : ℕ → Option ℚ) (m : ℕ)
    {vs : List ℕ} (hp : vs.Pairwise (· < ·)) :
    (monthRows look m vs).Pairwise (fun a b => a.vintage < b.vintage) := by
  have hfst : (ffillScan look vs none).Pairwise (fun p q => p.1 < q.1) := by
    have hmap := ffillScan_map_fst look vs none
    have hp2 : ((ffillScan look vs none).map Prod.fst).Pairwise (· < ·) := by
      rw [hmap]; exact hp
    exact (List.pairwise_map.mp hp2)
  refine pairwise_filterMap_of _ ?_ _ hfst
  rintro ⟨v1, o1⟩ ⟨v2, o2⟩ x y hR hg1 hg2
  rcases o1 with _ | x1
  · exact absurd hg1 (by simp)
  · rcases o2 with _ | x2
    · exact absurd hg2 (by simp)
    · have hx : x = ⟨m, v1, x1⟩ := by simpa using hg1.symm
      have hy : y = ⟨m, v2, x2⟩ := by simpa using hg2.symm
      subst hx
      subst hy
      exact hR

theorem month_of_mem_concatMapRows {f : ℕ → List Row}
    (hm : ∀ m r, r ∈ f m → r.month = m) {ms : List ℕ} {r : Row}
    (hr : r ∈ concatMapRows f ms) : r.month ∈ ms := by
  rcases (mem_concatMapRows f ms r).mp hr with ⟨m, hmem, hrm⟩
  rw [hm m r hrm]
  exact hmem

theorem pairwise_key_concatMapRows {f : ℕ → List Row}
    (hmonth : ∀ m r, r ∈ f m → r.month = m)
    (hvint : ∀ m, (f m).Pairwise (fun a b => a.vintage < b.vintage)) :
    ∀ ms : List ℕ, ms.Pairwise (· < ·) →
      (concatMapRows f ms).Pairwise (fun a b => pairLT (rowKey a) (rowKey b)) := by
  intro ms
  induction ms with
  | nil => intro _; simp [concatMapRows]
  | cons m ms ih =>
      intro hp
      rcases List.pairwise_cons.mp hp with ⟨hm, hp'⟩
      rw [concatMapRows, List.pairwise_append]
      refine ⟨?_, ih hp', ?_⟩
      · refine List.Pairwise.imp_of_mem ?_ (hvint m)
        intro a b ha hb hab
        refine Or.inr ⟨?_, hab⟩
        simp only [rowKey]
        rw [hmonth m a ha, hmonth m b hb]
      · intro a ha b hb
        have hbm : b.month ∈ ms := month_of_mem_concatMapRows hmonth hb
        refine Or.inl ?_
        show (rowKey a).1 < (rowKey b).1
        simp only [rowKey]
        rw [hmonth m a ha]
        exact hm b.month hbm

/-- C7: the final panel holds at most one row per observation month and
vintage date pair, and its rows are sorted strictly ascending by that
pair. -/
theorem claim_C7_panel_shape (tidy panel : List Row)
    (h : assemble tidy = some panel) :
    panel.Pairwise (fun a b => pairLT (rowKey a) (rowKey b)) ∧
    ∀ m v : ℕ, (panel.filter (fun r => decide (rowKey r = (m, v)))).length ≤ 1 := by
  rcases assemble_eq_some h with ⟨hne, rfl⟩
  have hpw := pairwise_key_concatMapRows
    (f := fun m => monthRows (obsAt tidy m) m (vintsOf tidy))
    (fun m r hr => ((mem_monthRows _ _ _ _).mp hr).1)
    (fun m => pairwise_vintage_monthRows _ m (pairwise_lt_vintsOf tidy))
    (allMonthsOf tidy) (by rw [allMonthsOf]; exact pairwise_natRange _ _)
  exact ⟨hpw, fun m v => length_filter_le_one_of_pairwiseLT rowKey (m, v) hpw⟩

/-- C7 witness: the shape invariant on the assembled two-vintage
scenario panel. -/
theorem claim_C7_witness :
    (tidyOfParts
      [(encodeDate 2024 5 1, [(encodeMonth 2024 1, 100)]),
       (encodeDate 2024 6 1, [(encodeMonth 2024 1, 102), (encodeMonth 2024 2, 105)])] ≠ []) ∧
    ([⟨encodeMonth 2024 1, encodeDate 2024 5 1, 100⟩,
      ⟨encodeMonth 2024 1, encodeDate 2024 6 1, 102⟩,
      ⟨encodeMonth 2024 2, encodeDate 2024 6 1, 105⟩] : List Row).Pairwise
        (fun a b => pairLT (rowKey a) (rowKey b)) ∧
    ∀ m v : ℕ,
      (([⟨encodeMonth 2024 1, encodeDate 2024 5 1, 100⟩,
         ⟨encodeMonth 2024 1, encodeDate 2024 6 1, 102⟩,
         ⟨encodeMonth 2024 2, encodeDate 2024 6 1, 105⟩] : List Row).filter
        (fun r => decide (rowKey r = (m, v)))).length ≤ 1 := by
  refine ⟨by decide, ?_⟩
  exact claim_C7_panel_shape scenarioTidy _ (by decide)

theorem mem_upTo_of_sorted {v : ℕ} {vs : List ℕ} (hp : vs.Pairwise (· < ·))
    (hv : v ∈ vs) (u : ℕ) : u ∈ upTo v vs ↔ u ∈ vs ∧ u ≤ v := by
  rcases upTo_decomp hp hv with ⟨p, s, hsplit, hupto, hps, hss⟩
  rw [hupto, hsplit]
  constructor
  · intro hu
    rcases List.mem_append.mp hu with hu | hu
    · exact ⟨List.mem_append_left _ hu, le_of_lt (hps u hu)⟩
    · have heq : u = v := List.mem_singleton.mp hu
      subst heq
      exact ⟨List.mem_append_right _ (List.mem_cons_self _ _), le_refl u⟩
  · rintro ⟨hu, hle⟩
    rcases List.mem_append.mp hu with hu | hu
    · exact List.mem_append_left _ hu
    · rcases List.mem_cons.mp hu with heq | hu
      · rw [heq]
        exact List.mem_append_right _ (List.mem_singleton_self v)
      · exact absurd hle (not_le.mpr (hss u hu))

set_option maxHeartbeats 1000000 in
/-- C2: the assembled panel has a row at month m and vintage v exactly
when m lies between the minimum and maximum observed month, v is one of
the distinct observed vintage dates, and some observed vintage at or
before v carries a value for month m; pairs with no such earlier
observation are absent. In the two-vintage scenario the panel holds
exactly the three populated cells and no row for February at the earlier
vintage. -/
theorem claim_C2_grid_completeness_and_trim :
    (∀ (tidy panel : List Row), assemble tidy = some panel →
      ∀ m v : ℕ, ((∃ x : ℚ, Row.mk m v x ∈ panel) ↔
        (monthsLo tidy ≤ m ∧ m ≤ monthsHi tidy ∧ v ∈ vintsOf tidy ∧
          ∃ v', v' ∈ vintsOf tidy ∧ v' ≤ v ∧
            ∃ r ∈ tidy, r.month = m ∧ r.vintage = v')))
    ∧ assemble scenarioTidy =
        some [⟨encodeMonth 2024 1, encodeDate 2024 5 1, 100⟩,
              ⟨encodeMonth 2024 1, encodeDate 2024 6 1, 102⟩,
              ⟨encodeMonth 2024 2, encodeDate 2024 6 1, 105⟩] := by
  refine ⟨?_, by decide⟩
  intro tidy panel h m v
  have hne := (assemble_eq_some h).1
  constructor
  · rintro ⟨x, hx⟩
    rcases (mem_assemble h ⟨m, v, x⟩).mp hx with ⟨hm, hscan⟩
    rcases (mem_ffillScan _ (vintsOf tidy) (nodup_vintsOf tidy) none v
      (some x)).mp hscan with ⟨hv, hcar⟩
    rcases (mem_allMonthsOf hne m).mp hm with ⟨hlo, hhi⟩
    refine ⟨hlo, hhi, hv, ?_⟩
    by_cases hall : ∀ u ∈ upTo v (vintsOf tidy), obsAt tidy m u = none
    · rw [(carried_none_iff (obsAt tidy m) (upTo v (vintsOf tidy))).mpr hall]
        at hcar
      exact absurd hcar (by simp)
    · push_neg at hall
      rcases hall with ⟨u, hu, hune⟩
      rcases (mem_upTo_of_sorted (pairwise_lt_vintsOf tidy) hv u).mp hu with
        ⟨huv, hule⟩
      rcases (obsAt_ne_none_iff tidy m u).mp hune with ⟨r, hr, hrm, hrv⟩
      exact ⟨u, huv, hule, r, hr, hrm, hrv⟩
  · rintro ⟨hlo, hhi, hv, v', hv', hle, r, hr, hrm, hrv⟩
    have hobs : obsAt tidy m v' ≠ none :=
      (obsAt_ne_none_iff tidy m v').mpr ⟨r, hr, hrm, hrv⟩
    have hup : v' ∈ upTo v (vintsOf tidy) :=
      (mem_upTo_of_sorted (pairwise_lt_vintsOf tidy) hv v').mpr ⟨hv', hle⟩
    rcases hc : carried (obsAt tidy m) none (upTo v (vintsOf tidy)) with _ | x
    · exact absurd ((carried_none_iff _ _).mp hc v' hup) hobs
    · refine ⟨x, (mem_assemble h ⟨m, v, x⟩).mpr ⟨?_, ?_⟩⟩
      · exact (mem_allMonthsOf hne m).mpr ⟨hlo, hhi⟩
      · exact (mem_ffillScan _ (vintsOf tidy) (nodup_vintsOf tidy) none v
          (some x)).mpr ⟨hv, hc.symm⟩

set_option maxHeartbeats 1000000 in
/-- C2 witness: in the two-vintage scenario, the absence of a February row
at the earlier vintage is equivalent, by the grid characterization, to the
absence of any vintage at or before it observing February. -/
theorem claim_C2_witness :
    (∃ x : ℚ, Row.mk (encodeMonth 2024 2) (encodeDate 2024 5 1) x ∈
        ([⟨encodeMonth 2024 1, encodeDate 2024 5 1, 100⟩,
          ⟨encodeMonth 2024 1, encodeDate 2024 6 1, 102⟩,
          ⟨encodeMonth 2024 2, encodeDate 2024 6 1, 105⟩] : List Row)) ↔
      (monthsLo scenarioTidy ≤ encodeMonth 2024 2 ∧
        encodeMonth 2024 2 ≤ monthsHi scenarioTidy ∧
        encodeDate 2024 5 1 ∈ vintsOf scenarioTidy ∧
        ∃ v', v' ∈ vintsOf scenarioTidy ∧ v' ≤ encodeDate 2024 5 1 ∧
          ∃ r ∈ scenarioTidy, r.month = encodeMonth 2024 2 ∧ r.vintage = v') :=
  claim_C2_grid_completeness_and_trim.1 scenarioTidy
    [⟨encodeMonth 2024 1, encodeDate 2024 5 1, 100⟩,
     ⟨encodeMonth 2024 1, encodeDate 2024 6 1, 102⟩,
     ⟨encodeMonth 2024 2, encodeDate 2024 6 1, 105⟩]
    (by decide) (encodeMonth 2024 2) (encodeDate 2024 5 1)

set_option maxHeartbeats 1000000 in
/-- C1: in the assembled panel, a cell whose deduplicated observation is
missing holds exactly the value of the nearest earlier vintage with a
non-missing observation for the same month (so a value is never borrowed
from a different month), and a cell with no earlier non-missing
observation for its month is absent from the panel. -/
theorem claim_C1_forward_fill (tidy panel : List Row)
    (h : assemble tidy = some panel) :
    (∀ (m v : ℕ) (x : ℚ), Row.mk m v x ∈ panel →
      (obsAt tidy m v = some x ∨
        (obsAt tidy m v = none ∧
          ∃ v', v' ∈ vintsOf tidy ∧ v' < v ∧ obsAt tidy m v' = some x ∧
            ∀ v'', v'' ∈ vintsOf tidy → v' < v'' → v'' < v →
              obsAt tidy m v'' = none)))
    ∧ (∀ m v : ℕ,
        (∀ v', v' ∈ vintsOf tidy → v' ≤ v → obsAt tidy m v' = none) →
        ∀ x : ℚ, Row.mk m v x ∉ panel) := by
  constructor
  · intro m v x hx
    rcases (mem_assemble h ⟨m, v, x⟩).mp hx with ⟨_, hscan⟩
    rcases (mem_ffillScan _ (vintsOf tidy) (nodup_vintsOf tidy) none v
      (some x)).mp hscan with ⟨hv, hcar⟩
    rcases upTo_decomp (pairwise_lt_vintsOf tidy) hv with
      ⟨p, s, hsplit, hupto, hps, hss⟩
    rw [hupto, carried_append, carried_cons, carried_nil] at hcar
    rcases hobs : obsAt tidy m v with _ | x0
    · right
      rw [show stepCarry (obsAt tidy m) (carried (obsAt tidy m) none p) v =
            carried (obsAt tidy m) none p by rw [stepCarry, hobs]] at hcar
      rcases (carried_some_iff (obsAt tidy m) p x).mp hcar.symm with
        ⟨l1, w, l2, hpsplit, hw, hnone⟩
      have hwp : w ∈ p := by
        rw [hpsplit]
        exact List.mem_append_right _ (List.mem_cons_self w l2)
      have hpw : p.Pairwise (· < ·) := by
        have := pairwise_lt_vintsOf tidy
        rw [hsplit] at this
        exact (List.pairwise_append.mp this).1
      refine ⟨rfl, w, ?_, hps w hwp, hw, ?_⟩
      · rw [hsplit]
        exact List.mem_append_left _ hwp
      · intro v2 hv2 hgt hlt
        rw [hsplit] at hv2
        rcases List.mem_append.mp hv2 with hv2 | hv2
        · rw [hpsplit] at hv2 hpw
          rcases List.mem_append.mp hv2 with hv2 | hv2
          · have : v2 < w :=
              (List.pairwise_append.mp hpw).2.2 v2 hv2 w (List.mem_cons_self w l2)
            omega
          · rcases List.mem_cons.mp hv2 with heq | hv2
            · omega
            · exact hnone v2 hv2
        · rcases List.mem_cons.mp hv2 with heq | hv2
          · omega
          · exact absurd hlt (not_lt.mpr (le_of_lt (hss v2 hv2)))
    · left
      rw [show stepCarry (obsAt tidy m) (carried (obsAt tidy m) none p) v =
            some x0 by rw [stepCarry, hobs]] at hcar
      rw [Option.some_inj.mp hcar]
  · intro m v hall x hx
    rcases (mem_assemble h ⟨m, v, x⟩).mp hx with ⟨_, hscan⟩
    rcases (mem_ffillScan _ (vintsOf tidy) (nodup_vintsOf tidy) none v
      (some x)).mp hscan with ⟨hv, hcar⟩
    have hallup : ∀ u ∈ upTo v (vintsOf tidy), obsAt tidy m u = none := by
      intro u hu
      rcases (mem_upTo_of_sorted (pairwise_lt_vintsOf tidy) hv u).mp hu with
        ⟨huv, hule⟩
      exact hall u huv hule
    rw [(carried_none_iff _ _).mpr hallup] at hcar
    exact absurd hcar (by simp)

set_option maxHeartbeats 1000000 in
/-- C1 witness: month 0 is observed only at vintage 10, so its cell at
vintage 20 is forward-filled from vintage 10; month 1 has no observation
at or before vintage 10, so that cell is absent. -/
theorem claim_C1_witness :
    (obsAt ffillTidy 0 20 = some 100 ∨
      (obsAt ffillTidy 0 20 = none ∧
        ∃ v', v' ∈ vintsOf ffillTidy ∧ v' < 20 ∧
          obsAt ffillTidy 0 v' = some 100 ∧
          ∀ v'', v'' ∈ vintsOf ffillTidy → v' < v'' → v'' < 20 →
            obsAt ffillTidy 0 v'' = none)) ∧
    Row.mk 1 10 105 ∉
      ([⟨0, 10, 100⟩, ⟨0, 20, 100⟩, ⟨1, 20, 105⟩] : List Row) :=
  ⟨(claim_C1_forward_fill ffillTidy
      [⟨0, 10, 100⟩, ⟨0, 20, 100⟩, ⟨1, 20, 105⟩] (by decide)).1 0 20 100 (by decide),
   (claim_C1_forward_fill ffillTidy
      [⟨0, 10, 100⟩, ⟨0, 20, 100⟩, ⟨1, 20, 105⟩] (by decide)).2 1 10 (by decide) 105⟩

end Tidy
